import Mathlib

/-!
# Verification of the BrainModels spike-propagation / conductance-coupling engine

Shallow embedding of the synapse and neuron per-tick update functions of the
BrainModels repository (`brainmodels/synapses/exponential.py`,
`brainmodels/synapses/NMDA.py`, `bpmodels/synapses/GABAa.py`,
`bpmodels/neurons/AdQuaIF_model.py`, `brainmodels/neurons/FHN.py`).

Vectors (numpy 1-d arrays) are modelled as `List ℚ` (or `List ℝ` where the
model's mathematics involves the exponential function, and `List Bool` for
spike vectors).  Array reads are `List.getD`, in-place element writes are
`List.set`.  The framework-generated pieces (the constant-delay buffer and the
ODE-integrator steppers produced by `bp.odeint` / `bp.integrate`) are not part
of the repository sources; they are modelled from the specification and marked
as such in their doc comments.
-/

namespace BrainModels

/-- A spike vector: one boolean per pre-synaptic neuron. -/
abbrev SpikeVec := List Bool

/-- A real-valued state vector (numpy float array), modelled over `ℚ`. -/
abbrev QVec := List ℚ

/-- `v[j] += c` (python scalar in-place add at one index). -/
def bump (v : QVec) (j : Nat) (c : ℚ) : QVec :=
  v.set j (v.getD j 0 + c)

/-- numpy fancy-index in-place add `v[ids] += c`: every index occurring in
`ids` receives the value `v[id] + c` (duplicate indices are written the same
value, so the increment is applied once per distinct index, exactly as numpy
buffers fancy-index assignment).  `k` is the index of the head of the list. -/
def fancyAddFrom (c : ℚ) (ids : List Nat) : QVec → Nat → QVec
  | [], _ => []
  | x :: xs, k => (if k ∈ ids then x + c else x) :: fancyAddFrom c ids xs (k + 1)

/-- numpy `v[ids] += c` on a whole vector. -/
def fancyAdd (v : QVec) (ids : List Nat) (c : ℚ) : QVec :=
  fancyAddFrom c ids v 0

/-- numpy fancy-index assignment `v[ids] = t`. -/
def assignIdxFrom (t : ℚ) (ids : List Nat) : QVec → Nat → QVec
  | [], _ => []
  | x :: xs, k => (if k ∈ ids then t else x) :: assignIdxFrom t ids xs (k + 1)

/-- numpy `v[ids] = t` on a whole vector. -/
def assignIdx (v : QVec) (ids : List Nat) (t : ℚ) : QVec :=
  assignIdxFrom t ids v 0

/-- Python slice `xs[start:stop]`. -/
def pySlice (xs : List Nat) (start stop : Nat) : List Nat :=
  (xs.drop start).take (stop - start)

/-- Indices of the `true` entries of a spike vector among `0 .. n-1`
(numpy `where(spikes)[0]`). -/
def whereTrue (n : Nat) (spikes : SpikeVec) : List Nat :=
  (List.range n).filter (fun i => spikes.getD i false)

/-!
## DelayLine

Modelled from the spec: the per-synapse constant-delay buffer is created by the
external framework's `register_constant_delay` and is absent from `src/`; the
spec (§2, §3, §4.1) describes it as a fixed-length circular buffer of spike
vectors with a write cursor, explicitly zero-initialized, with push advancing
the cursor modulo the capacity and pull returning the vector recorded `D`
pushes earlier (`D = 0` degenerating to same-tick delivery).  With the callers'
push-then-pull order a capacity of `D + 1` slots realises a delay of exactly
`D` ticks: push writes at `head` and advances, pull reads the slot that the
next push will overwrite, which holds the vector pushed `D` pushes ago (or its
initial all-zero content during the first `D` ticks).
-/

/-- Circular delay buffer of capacity `D + 1` spike vectors. -/
structure DelayLine where
  D : Nat
  buf : List SpikeVec
  head : Nat
  deriving DecidableEq

/-- A fresh delay line for delay `D` over a source population of `n` neurons:
zero-initialized buffer, cursor at slot `0`. -/
def DelayLine.init (D n : Nat) : DelayLine :=
  { D := D, buf := List.replicate (D + 1) (List.replicate n false), head := 0 }

/-- Record a spike vector at the cursor and advance the cursor. -/
def DelayLine.push (dl : DelayLine) (v : SpikeVec) : DelayLine :=
  { dl with buf := dl.buf.set dl.head v, head := (dl.head + 1) % (dl.D + 1) }

/-- Read the vector recorded `D` pushes ago (the slot the next push will
overwrite). -/
def DelayLine.pull (dl : DelayLine) : SpikeVec :=
  dl.buf.getD dl.head []

/-- Push a whole sequence of per-tick spike vectors, oldest first. -/
def DelayLine.pushAll (dl : DelayLine) (vs : List SpikeVec) : DelayLine :=
  vs.foldl DelayLine.push dl

/-- The buffer prefixed by its initial zero contents: slot bookkeeping helper
for the circular-buffer invariant. -/
def DelayLine.padded (D n : Nat) (vs : List SpikeVec) : List SpikeVec :=
  List.replicate (D + 1) (List.replicate n false) ++ vs

/-- Index into `DelayLine.padded` of the value held by slot `s` of a capacity-`C`
circular buffer after `m` pushes: the most recent write to that slot (writes at
push `t` go to slot `t % C`; index `s` itself denotes the initial zero fill). -/
def lastWrite (C : Nat) : Nat → Nat → Nat
  | 0, s => s
  | m + 1, s => if m % C = s then m + C else lastWrite C m s

/-!
## ExpCUBA (`brainmodels/synapses/exponential.py`)

The per-tick update methods.  The framework-generated integral
(`bp.odeint(method='exponential_euler')` applied to `dg = -g / tau`) multiplies
`g` elementwise by the tick-constant factor `exp(-dt / tau)`; that factor
enters the embedding as the parameter `rho`, so that the surrounding array
program is exactly the source's.
-/

/-- `ExpCUBA._sparse_update`: push/pull the delay line, decay `g`, add `g_max`
into `g[post_ids[start:end]]` for every delayed-spiking pre neuron, then
`post.input[:] += g`.  Returns the new delay line, `g`, and `post.input`. -/
def ExpCUBA.sparse_update (numPre : Nat) (preSlice : List (Nat × Nat))
    (postIds : List Nat) (gMax rho : ℚ) (dl : DelayLine) (g input : QVec)
    (preSpike : SpikeVec) : DelayLine × QVec × QVec :=
  let dl1 := dl.push preSpike
  let pulled := dl1.pull
  let g1 := g.map (· * rho)
  let g2 := (whereTrue numPre pulled).foldl
    (fun acc preId =>
      let se := preSlice.getD preId (0, 0)
      fancyAdd acc (pySlice postIds se.1 se.2) gMax) g1
  (dl1, g2, input.zipWith (· + ·) g2)

/-- `ExpCUBA._dense_update`: push/pull the delay line, decay the `g` matrix,
add `conn_mat[i] * g_max` into row `g[i]` for every delayed-spiking pre neuron
`i`.  The source method body contains no write to `post.input` at all, so the
input vector is returned unchanged. -/
def ExpCUBA.dense_update (numPre : Nat) (connMat : List QVec) (gMax rho : ℚ)
    (dl : DelayLine) (g : List QVec) (input : QVec) (preSpike : SpikeVec) :
    DelayLine × List QVec × QVec :=
  let dl1 := dl.push preSpike
  let pulled := dl1.pull
  let g1 := g.map (fun row => row.map (· * rho))
  let g2 := (List.range numPre).foldl
    (fun acc i =>
      if pulled.getD i false then
        acc.set i ((acc.getD i []).zipWith (· + ·) ((connMat.getD i []).map (· * gMax)))
      else acc) g1
  (dl1, g2, input)

/-!
## ExpCOBA (`brainmodels/synapses/exponential.py`)
-/

/-- `ExpCOBA._sparse_update`: like the CUBA sparse step but with an explicit
python double loop for the increments and the conductance-based coupling
`post.input[:] += g * (E - post.V)`. -/
def ExpCOBA.sparse_update (numPre : Nat) (preSlice : List (Nat × Nat))
    (postIds : List Nat) (gMax rho E : ℚ) (dl : DelayLine) (g input V : QVec)
    (preSpike : SpikeVec) : DelayLine × QVec × QVec :=
  let dl1 := dl.push preSpike
  let pulled := dl1.pull
  let g1 := g.map (· * rho)
  let g2 := (List.range numPre).foldl
    (fun acc preId =>
      if pulled.getD preId false then
        let se := preSlice.getD preId (0, 0)
        (pySlice postIds se.1 se.2).foldl (fun a postId => bump a postId gMax) acc
      else acc) g1
  (dl1, g2, input.zipWith (· + ·) (g2.zipWith (fun gj vj => gj * (E - vj)) V))

/-- numpy 1-d broadcasting elementwise product: defined when the lengths agree
or one operand has length 1; otherwise a `ValueError` (`none`). -/
def bcastMul (xs ys : QVec) : Option QVec :=
  if xs.length = ys.length then some (xs.zipWith (· * ·) ys)
  else if xs.length = 1 then some (ys.map (fun y => xs.getD 0 0 * y))
  else if ys.length = 1 then some (xs.map (fun x => x * ys.getD 0 0))
  else none

/-- numpy `input[j] += vec` where `vec` is an array: accepted only when `vec`
has size 1 (and `j` is in range); a longer array cannot be assigned into a
single scalar cell (`ValueError`, modelled as `none`). -/
def setItemAdd (input : QVec) (j : Nat) (vec : QVec) : Option QVec :=
  if vec.length = 1 ∧ j < input.length then
    some (input.set j (input.getD j 0 + vec.getD 0 0))
  else none

/-- `ExpCOBA._loop_update`: the source iterates over edges `i`, reading
`self.pre_ids[i]` / `self.post_ids[i]` (an edge-list layout, although the
constructor only ever creates `pre_slice` / `post_ids`), increments `g[i]`
per delayed spike, and then executes
`self.post.input[post_i] += self.g * (self.E - self.post.V)` — the whole
array expression, not edge `i`'s scalar term — inside the loop.  The embedding
gives the method the edge-list state it assumes and models the numpy array
semantics of that assignment; the result is `none` when numpy would raise. -/
def ExpCOBA.loop_update (size : Nat) (preIds postIds : List Nat)
    (gMax rho E : ℚ) (dl : DelayLine) (g input V : QVec) (preSpike : SpikeVec) :
    Option (DelayLine × QVec × QVec) :=
  let dl1 := dl.push preSpike
  let pulled := dl1.pull
  let g1 := g.map (· * rho)
  ((List.range size).foldlM
    (fun (st : QVec × QVec) i =>
      let preId := preIds.getD i 0
      let postId := postIds.getD i 0
      let g2 := if pulled.getD preId false then bump st.1 i gMax else st.1
      match bcastMul g2 (V.map (fun vj => E - vj)) with
      | none => none
      | some addend =>
        match setItemAdd st.2 postId addend with
        | none => none
        | some input1 => some (g2, input1)) ((g1, input) : QVec × QVec)).map
    (fun (st : QVec × QVec) => (dl1, st.1, st.2))

/-!
## GABAa (`bpmodels/synapses/GABAa.py`)
-/

/-- `get_GABAa1.output`: per post neuron, `post_cond[post_id]` is the sum of
`ST['g']` over that neuron's synapse indices, and
`post['input'] -= post_cond * (post['V'] - E)`. -/
def GABAa1.output (post2syn : List (List Nat)) (E : ℚ) (g V input : QVec) : QVec :=
  let postCond := post2syn.map (fun synIds => (synIds.map (fun i => g.getD i 0)).sum)
  input.zipWith (· - ·) (postCond.zipWith (fun pc vj => pc * (vj - E)) V)

/-- `get_GABAa2.update`: record the current time into `t_last_pre_spike` for
every synapse of every spiking pre neuron, build the transmitter concentration
`TT = ((t - t_last_pre_spike) < T_duration) * T`, then advance
`s ← s + dt * (alpha * TT * (1 - s) - beta * s)` and set `g = g_max * s`.
The `@bp.integrate` stepper for `int_s` is modelled from the spec: §4.2 gives
the markov two-state form exactly as the forward step
`s ← s + dt·(α·TT·(1−s) − β·s)`.  Returns `(s, t_last_pre_spike, g)`. -/
def GABAa2.update (numPre : Nat) (alpha beta T Tdur gMax dt t : ℚ)
    (preSpike : SpikeVec) (pre2syn : List (List Nat)) (s tLast : QVec) :
    QVec × QVec × QVec :=
  let tLast1 := (whereTrue numPre preSpike).foldl
    (fun acc preId => assignIdx acc (pre2syn.getD preId []) t) tLast
  let TT := tLast1.map (fun tl => if t - tl < Tdur then T else 0)
  let s1 := s.zipWith (fun si TTi => si + dt * (alpha * TTi * (1 - si) - beta * si)) TT
  (s1, tLast1, s1.map (fun si => gMax * si))

/-!
## NMDA (`brainmodels/synapses/NMDA.py`)

The NMDA model involves the real exponential function (magnesium block), so it
is embedded over `ℝ`.
-/

/-- A real-valued state vector for the NMDA model. -/
abbrev RVec := List ℝ

/-- `NMDA.integral`: the framework-generated stepper
(`bp.odeint(method='exponential_euler')`) for `dx = -x/tau_rise`,
`dg = -g/tau_decay + a·x·(1-g)` is modelled from the spec: §4.2's rise-decay
pair `x ← x·exp(−dt/τ_rise)`, `g ← g·exp(−dt/τ_decay) + dt·a·x·(1−g)`, with
`x` decayed before it drives `g`.  Returns `(g, x)`. -/
noncomputable def NMDA.integral (tauDecay tauRise a dt : ℝ) (g x : ℝ) : ℝ × ℝ :=
  let x1 := x * Real.exp (-(dt / tauRise))
  (g * Real.exp (-(dt / tauDecay)) + dt * a * x1 * (1 - g), x1)

/-- The magnesium-block factor
`g_inf = 1 + cc_Mg / beta * exp(-alpha * V[post_id])` of `NMDA.sparse_update`. -/
noncomputable def NMDA.g_inf (ccMg beta alpha v : ℝ) : ℝ :=
  1 + ccMg / beta * Real.exp (-(alpha * v))

/-- One iteration of the edge loop of `NMDA.sparse_update`:
`x[i] += delayed_pre_spike[pre_id]` and
`post.input[post_id] -= g_max * g[i] * (post.V[post_id] - E) / g_inf`.
The state is the pair `(x, input)`; `g` is not written inside the loop. -/
noncomputable def NMDA.loop_body (gMax E alpha beta ccMg : ℝ) (V : RVec)
    (pulled : SpikeVec) (preIds postIds : List Nat) (gI : RVec)
    (st : RVec × RVec) (i : Nat) : RVec × RVec :=
  let preId := preIds.getD i 0
  let postId := postIds.getD i 0
  let x1 := st.1.set i (st.1.getD i 0 + (if pulled.getD preId false then 1 else 0))
  let vj := V.getD postId 0
  (x1, st.2.set postId
    (st.2.getD postId 0 - gMax * gI.getD i 0 * (vj - E) / NMDA.g_inf ccMg beta alpha vj))

/-- The `g` component of `self.g[:], self.x[:] = self.integral(self.g, self.x, _t, dt=_dt)`
in `NMDA.sparse_update`. -/
noncomputable def NMDA.g_integrated (tauDecay tauRise a dt : ℝ) (g x : RVec) : RVec :=
  ((g.zip x).map (fun p => NMDA.integral tauDecay tauRise a dt p.1 p.2)).map Prod.fst

/-- The `x` component of the vectorized `NMDA.integral` call in
`NMDA.sparse_update`. -/
noncomputable def NMDA.x_integrated (tauDecay tauRise a dt : ℝ) (g x : RVec) : RVec :=
  ((g.zip x).map (fun p => NMDA.integral tauDecay tauRise a dt p.1 p.2)).map Prod.snd

/-- The per-edge NMDA coupling term subtracted from `post.input[post_id(i)]`:
`g_max · g[i] · (V[post_id(i)] − E) / g_inf`, with `g_inf` computed from edge
`i`'s own post-synaptic voltage. -/
noncomputable def NMDA.edge_term (postIds : List Nat) (gMax E alpha beta ccMg : ℝ)
    (V gI : RVec) (i : Nat) : ℝ :=
  gMax * gI.getD i 0 * (V.getD (postIds.getD i 0) 0 - E)
    / NMDA.g_inf ccMg beta alpha (V.getD (postIds.getD i 0) 0)

/-- `NMDA.sparse_update`: push/pull the delay line, integrate `(g, x)`, then
run the edge loop.  Returns the new delay line, `g`, `x`, and `post.input`. -/
noncomputable def NMDA.sparse_update (size : Nat) (preIds postIds : List Nat)
    (gMax E alpha beta ccMg tauDecay tauRise a dt : ℝ) (dl : DelayLine)
    (g x input V : RVec) (preSpike : SpikeVec) :
    DelayLine × RVec × RVec × RVec :=
  let dl1 := dl.push preSpike
  let pulled := dl1.pull
  let gI := NMDA.g_integrated tauDecay tauRise a dt g x
  let xI := NMDA.x_integrated tauDecay tauRise a dt g x
  let fin := (List.range size).foldl
    (NMDA.loop_body gMax E alpha beta ccMg V pulled preIds postIds gI) (xI, input)
  (dl1, gI, fin.1, fin.2)

/-!
## Constructors (`ExpCUBA.__init__`, `NMDA.__init__`)
-/

/-- The configuration an `ExpCUBA` instance stores at construction. -/
structure ExpCUBAConf where
  gMax : ℚ
  delay : ℚ
  tau : ℚ
  sparse : Bool
  deriving DecidableEq

/-- `ExpCUBA.__init__`: the only validation performed is the dispatch on
`update_type` (`'sparse'` / `'dense'` accepted, anything else raises
`UnsupportedError`); the parameters — `tau` included — are stored unchecked. -/
def ExpCUBA.init (gMax delay tau : ℚ) (updateType : String) :
    Except String ExpCUBAConf :=
  if updateType = "sparse" then
    .ok { gMax := gMax, delay := delay, tau := tau, sparse := true }
  else if updateType = "dense" then
    .ok { gMax := gMax, delay := delay, tau := tau, sparse := false }
  else
    .error ("UnsupportedError: do not support " ++ updateType ++ " method.")

/-- The configuration an `NMDA` instance stores at construction. -/
structure NMDAConf where
  gMax : ℚ
  E : ℚ
  alpha : ℚ
  beta : ℚ
  ccMg : ℚ
  tauDecay : ℚ
  tauRise : ℚ
  a : ℚ
  delay : ℚ
  deriving DecidableEq

/-- `NMDA.__init__`: validation is the dispatch on `update_type` (`'sparse'`
accepted, `'dense'` raises `NotImplementedError`, anything else raises
`UnsupportedError`); `tau_decay` and `tau_rise` are stored unchecked. -/
def NMDA.init (gMax E ccMg alpha beta tauDecay a tauRise delay : ℚ)
    (updateType : String) : Except String NMDAConf :=
  if updateType = "sparse" then
    .ok { gMax := gMax, E := E, alpha := alpha, beta := beta, ccMg := ccMg,
          tauDecay := tauDecay, tauRise := tauRise, a := a, delay := delay }
  else if updateType = "dense" then
    .error "NotImplementedError"
  else
    .error ("UnsupportedError: do not support " ++ updateType ++ " method.")

/-!
## Neurons (`brainmodels/neurons/FHN.py`, `bpmodels/neurons/AdQuaIF_model.py`)
-/

/-- State of an `FHN` population (vectors indexed by neuron). -/
structure FHNState where
  V : QVec
  w : QVec
  input : QVec
  spike : List Bool
  tLastSpike : QVec

/-- `FHN.integral`: the `@bp.odeint` stepper is modelled from the spec (§4.2
generic forward step `state ← state + dt·RHS`) applied to the source RHS
`dV = V - V³/3 - w + Iext`, `dw = (V + a - b·w)/tau`.  Returns `(V, w)`. -/
def FHN.integral (a b tau dt : ℚ) (V w Iext : ℚ) : ℚ × ℚ :=
  (V + dt * (V - V * V * V / 3 - w + Iext), w + dt * ((V + a - b * w) / tau))

/-- `FHN.update`: integrate `(V, w)` with the accumulated input, detect
threshold crossings, record spike times, and end with `self.input[:] = 0.`. -/
def FHN.update (a b tau Vth dt t : ℚ) (st : FHNState) : FHNState :=
  let Vw := (st.V.zip (st.w.zip st.input)).map
    (fun p => FHN.integral a b tau dt p.1 p.2.1 p.2.2)
  let Vn := Vw.map Prod.fst
  let wn := Vw.map Prod.snd
  let spike1 := (Vn.zip st.V).map (fun p => decide (Vth ≤ p.1) && decide (p.2 < Vth))
  let tLast1 := (spike1.zip st.tLastSpike).map (fun p => if p.1 then t else p.2)
  { V := Vn, w := wn, input := List.replicate st.input.length 0,
    spike := spike1, tLastSpike := tLast1 }

/-- Scalar state of one `AdQuaIF` neuron (`ST` in the source). -/
structure AdQuaIFState where
  V : ℚ
  w : ℚ
  input : ℚ
  spike : ℚ
  refractory : ℚ
  tLastSpike : ℚ
  deriving DecidableEq

/-- `get_AdQuaIF.update` (scalar mode): clear the spike flag; inside the
refractory period only set the refractory flag; otherwise forward-Euler-step
`w` then `V` (the `@bp.integrate` steppers are modelled from the spec, §4.2
generic forward step; the stochastic `noise` component, default `0`, is
omitted), apply the threshold/reset rule; in every branch finish with
`ST['input'] = 0.`. -/
def AdQuaIF.update (a b a0 Vc Vrest Vreset Vth R tau tauW tRef dt t : ℚ)
    (st : AdQuaIFState) : AdQuaIFState :=
  if t - st.tLastSpike ≤ tRef then
    { st with spike := 0, refractory := 1, input := 0 }
  else
    let w1 := st.w + dt * ((a * (st.V - Vrest) - st.w) / tauW)
    let V1 := st.V + dt * ((a0 * (st.V - Vrest) * (st.V - Vc) - R * w1 + R * st.input) / tau)
    if Vth ≤ V1 then
      { V := Vreset, w := w1 + b, input := 0, spike := 1, refractory := 0,
        tLastSpike := t }
    else
      { V := V1, w := w1, input := 0, spike := 0, refractory := 0,
        tLastSpike := st.tLastSpike }

/-!
## GatingIntegrator decay step
-/

/-- Modelled from the spec: the single-exponential-decay gating integration
step.  The repository defines the right-hand sides (`ExpCUBA.integral`:
`dg = -g/tau`, requested with `method='exponential_euler'`; `get_GABAa1.int_s`:
`ds = -s/tau_decay`), while the stepper itself is generated by the external
framework; §4.2 mandates the exponential-Euler closed form
`g ← g·exp(−dt/τ_decay)`. -/
noncomputable def expEulerDecay (tau dt g : ℝ) : ℝ :=
  g * Real.exp (-(dt / tau))

/-!
## Helper lemmas about list reads and writes
-/

lemma getD_zipWith {α β γ : Type} (f : α → β → γ) (xs : List α) (ys : List β)
    (j : Nat) (da : α) (db : β) (dc : γ) (hx : j < xs.length) (hy : j < ys.length) :
    (xs.zipWith f ys).getD j dc = f (xs.getD j da) (ys.getD j db) := by
  induction xs generalizing ys j with
  | nil => simp at hx
  | cons x xs ih =>
    cases ys with
    | nil => simp at hy
    | cons y ys =>
      cases j with
      | zero => rfl
      | succ m => simpa using ih ys m (by simpa using hx) (by simpa using hy)

lemma getD_map_lt {α β : Type} (f : α → β) (xs : List α) (j : Nat) (da : α) (db : β)
    (hj : j < xs.length) : (xs.map f).getD j db = f (xs.getD j da) := by
  induction xs generalizing j with
  | nil => simp at hj
  | cons x xs ih =>
    cases j with
    | zero => rfl
    | succ m => simpa using ih m (by simpa using hj)

lemma getD_set_self {α : Type} (v : List α) (j : Nat) (x d : α) (hj : j < v.length) :
    (v.set j x).getD j d = x := by
  induction v generalizing j with
  | nil => simp at hj
  | cons a as ih =>
    cases j with
    | zero => rfl
    | succ m => simpa using ih m (by simpa using hj)

lemma getD_set_ne {α : Type} (v : List α) (i j : Nat) (x d : α) (h : i ≠ j) :
    (v.set i x).getD j d = v.getD j d := by
  induction v generalizing i j with
  | nil => simp
  | cons a as ih =>
    cases i with
    | zero =>
      cases j with
      | zero => exact absurd rfl h
      | succ m => rfl
    | succ m =>
      cases j with
      | zero => rfl
      | succ k => simpa using ih m k (by omega)

lemma length_foldl_preserve {α β : Type} (f : List α → β → List α) (l : List β)
    (init : List α) (h : ∀ acc x, (f acc x).length = acc.length) :
    (l.foldl f init).length = init.length := by
  induction l generalizing init with
  | nil => rfl
  | cons x xs ih => rw [List.foldl_cons, ih, h]

lemma length_bump (v : QVec) (j : Nat) (c : ℚ) : (bump v j c).length = v.length := by
  simp [bump]

/-!
## Helper lemmas for the DelayLine invariant
-/

lemma lastWrite_lt (C m s : Nat) (hs : s < C) : lastWrite C m s < m + C := by
  induction m with
  | zero => simpa [lastWrite]
  | succ k ih =>
    unfold lastWrite
    split
    · omega
    · omega

lemma lastWrite_eq_of (C : Nat) (m s t : Nat) (_hs : s < C) (h1 : m ≤ t)
    (h2 : t < m + C) (h3 : t % C = s) : lastWrite C m s = t := by
  induction m with
  | zero =>
    have : t % C = t := Nat.mod_eq_of_lt (by omega)
    simpa [lastWrite, this] using h3.symm
  | succ k ih =>
    unfold lastWrite
    split
    · rename_i hk
      have hmod : t % C = k % C := by rw [h3, hk]
      have hkt : k ≤ t := by omega
      have hdvd : C ∣ t - k := (Nat.modEq_iff_dvd' hkt).mp (Nat.ModEq.symm hmod)
      obtain ⟨q, hq⟩ := hdvd
      have hq1 : 1 ≤ C * q := by omega
      have hq2 : C * q ≤ C := by omega
      match q with
      | 0 => omega
      | 1 => omega
      | q + 2 =>
        have h2C : C * 2 ≤ C * (q + 2) := Nat.mul_le_mul_left C (by omega)
        omega
    · rename_i hk
      have hne : t ≠ k + C := by
        intro he
        apply hk
        rw [← h3, he, Nat.add_mod_right]
      exact ih (by omega) (by omega)

lemma lastWrite_self (C m : Nat) (hC : 0 < C) : lastWrite C m (m % C) = m :=
  lastWrite_eq_of C m (m % C) m (Nat.mod_lt m hC) (Nat.le_refl m) (by omega) rfl

lemma pushAll_invariant (D n : Nat) (vs : List SpikeVec) :
    (DelayLine.pushAll (DelayLine.init D n) vs).D = D
    ∧ (DelayLine.pushAll (DelayLine.init D n) vs).head = vs.length % (D + 1)
    ∧ (DelayLine.pushAll (DelayLine.init D n) vs).buf.length = D + 1
    ∧ ∀ s, s < D + 1 →
        (DelayLine.pushAll (DelayLine.init D n) vs).buf.getD s []
          = (DelayLine.padded D n vs).getD (lastWrite (D + 1) vs.length s) [] := by
  induction vs using List.reverseRecOn with
  | nil =>
    refine ⟨rfl, rfl, by simp [DelayLine.pushAll, DelayLine.init], ?_⟩
    intro s hs
    simp only [DelayLine.pushAll, List.foldl_nil, DelayLine.init, DelayLine.padded,
      lastWrite, List.append_nil]
  | append_singleton vs v ih =>
    obtain ⟨hD, hh, hl, hb⟩ := ih
    have hstep : DelayLine.pushAll (DelayLine.init D n) (vs ++ [v])
        = (DelayLine.pushAll (DelayLine.init D n) vs).push v := by
      simp [DelayLine.pushAll]
    set st := DelayLine.pushAll (DelayLine.init D n) vs with hst
    have hCpos : 0 < D + 1 := Nat.succ_pos D
    have hheadlt : st.head < D + 1 := by rw [hh]; exact Nat.mod_lt _ hCpos
    refine ⟨by rw [hstep]; simpa [DelayLine.push] using hD, ?_, ?_, ?_⟩
    · rw [hstep]
      simp only [DelayLine.push, hD, hh]
      rw [Nat.mod_add_mod]
      simp
    · rw [hstep]
      simpa [DelayLine.push] using hl
    · intro s hs
      rw [hstep]
      simp only [DelayLine.push, hD]
      have hpad : DelayLine.padded D n (vs ++ [v]) = DelayLine.padded D n vs ++ [v] := by
        simp [DelayLine.padded]
      by_cases hsh : s = st.head
      · subst hsh
        have hlhs : (st.buf.set st.head v).getD st.head [] = v :=
          getD_set_self _ _ _ _ (by rw [hl]; exact hheadlt)
        have hlw : lastWrite (D + 1) (vs ++ [v]).length st.head
            = vs.length + (D + 1) := by
          have : vs.length % (D + 1) = st.head := hh.symm
          simp [lastWrite, this]
        rw [hlhs, hlw, hpad]
        have hplen : (DelayLine.padded D n vs).length = (D + 1) + vs.length := by
          simp [DelayLine.padded]
        rw [List.getD_append_right _ _ _ _ (by omega)]
        have : vs.length + (D + 1) - (DelayLine.padded D n vs).length = 0 := by omega
        rw [this]
        rfl
      · have hlhs : (st.buf.set st.head v).getD s [] = st.buf.getD s [] :=
          getD_set_ne _ _ _ _ _ (fun he => hsh he.symm)
        have hlw : lastWrite (D + 1) (vs ++ [v]).length s
            = lastWrite (D + 1) vs.length s := by
          have hne : vs.length % (D + 1) ≠ s := by rw [← hh]; exact fun he => hsh he.symm
          simp [lastWrite, hne]
        rw [hlhs, hlw, hpad, hb s hs]
        have hplen : (DelayLine.padded D n vs).length = (D + 1) + vs.length := by
          simp [DelayLine.padded]
        rw [List.getD_append _ _ _ _ (by
          have := lastWrite_lt (D + 1) vs.length s hs
          omega)]

/-- C3: for every delay length `D ≥ 0` and every sequence of pushed spike
vectors, the vector pulled at tick `k` (after the tick's push) equals the
vector pushed at tick `k − D` when `k ≥ D`, equals the all-zero vector when
`k < D` (the buffer is zero-initialized, not garbage), and when `D = 0` it
equals the vector pushed at the same tick.  Here the pushes are
`vs ++ [v]`, so the current tick is `k = vs.length`. -/
theorem delay_line_correct (D n : Nat) (vs : List SpikeVec) (v : SpikeVec) :
    (DelayLine.pushAll (DelayLine.init D n) (vs ++ [v])).pull
      = (if D ≤ vs.length then (vs ++ [v]).getD (vs.length - D) []
         else List.replicate n false)
    ∧ (DelayLine.pushAll (DelayLine.init 0 n) (vs ++ [v])).pull = v := by
  have main : ∀ (D : Nat),
      (DelayLine.pushAll (DelayLine.init D n) (vs ++ [v])).pull
        = (if D ≤ vs.length then (vs ++ [v]).getD (vs.length - D) []
           else List.replicate n false) := by
    intro D
    obtain ⟨hD, hh, hl, hb⟩ := pushAll_invariant D n (vs ++ [v])
    have hCpos : 0 < D + 1 := Nat.succ_pos D
    have hm : (vs ++ [v]).length = vs.length + 1 := by simp
    have hheadlt : (DelayLine.pushAll (DelayLine.init D n) (vs ++ [v])).head < D + 1 := by
      rw [hh]; exact Nat.mod_lt _ hCpos
    unfold DelayLine.pull
    rw [hh, hb _ (by rw [← hh]; exact hheadlt)]
    rw [hm, lastWrite_self (D + 1) (vs.length + 1) hCpos]
    have hplen : (List.replicate (D + 1) (List.replicate n false)).length = D + 1 := by
      simp
    by_cases hcase : D ≤ vs.length
    · rw [if_pos hcase]
      unfold DelayLine.padded
      rw [List.getD_append_right _ _ _ _ (by omega)]
      have : vs.length + 1 - (List.replicate (D + 1) (List.replicate n false)).length
          = vs.length - D := by rw [hplen]; omega
      rw [this]
    · rw [if_neg hcase]
      unfold DelayLine.padded
      rw [List.getD_append _ _ _ _ (by omega)]
      rw [List.getD_eq_getElem _ _ (by omega)]
      exact List.getElem_replicate _ _
  refine ⟨main D, ?_⟩
  rw [main 0]
  rw [if_pos (Nat.zero_le _)]
  rw [List.getD_append_right _ _ _ _ (by omega)]
  simp

/-- C10: every per-tick neuron update ends with the input accumulator equal to
exactly `0`, for every reachable state: `FHN.update` always resets `input` to
the all-zero vector after integrating, and `AdQuaIF.update` sets `input` to
`0` on every call — including ticks spent inside the refractory period, where
`V` and `w` are not integrated but `input` is still cleared. -/
theorem neuron_update_clears_input (a b tau Vth dt t : ℚ) (st : FHNState)
    (a2 b2 a0 Vc Vrest Vreset Vth2 R tau2 tauW tRef dt2 t2 : ℚ)
    (st2 : AdQuaIFState) :
    (FHN.update a b tau Vth dt t st).input = List.replicate st.input.length 0
    ∧ (AdQuaIF.update a2 b2 a0 Vc Vrest Vreset Vth2 R tau2 tauW tRef dt2 t2 st2).input
        = 0 := by
  constructor
  · rfl
  · unfold AdQuaIF.update
    split
    · rfl
    · dsimp only
      split
      · rfl
      · rfl

/-- C6 counterexample: constructing `ExpCUBA` with a zero decay time constant
succeeds — `ExpCUBA.init 1 0 0 "sparse"` returns the stored configuration
(with `tau = 0`) instead of raising `UnsupportedConfigurationError`. -/
theorem expCUBA_zero_tau_constructs :
    ExpCUBA.init 1 0 0 "sparse"
      = .ok { gMax := 1, delay := 0, tau := 0, sparse := true } := by
  rfl

/-- C6 amended: construction performs no validation of the decay time
constants: with `tau = 0` (`ExpCUBA`) or `tau_decay = 0` and `tau_rise = 0`
(`NMDA`) construction succeeds and stores the zero constants, for both the
sparse and dense `ExpCUBA` paths; the only construction-time errors are an
unrecognized `update_type` (`UnsupportedError`) and the `NMDA` dense path
(`NotImplementedError`).  The zero constant therefore reaches the per-step
integral's division undetected. -/
theorem init_ignores_zero_time_constants :
    (ExpCUBA.init 2 1 0 "dense"
        = .ok { gMax := 2, delay := 1, tau := 0, sparse := false })
    ∧ (NMDA.init 1 0 1 1 1 0 1 0 0 "sparse"
        = .ok { gMax := 1, E := 0, alpha := 1, beta := 1, ccMg := 1,
                tauDecay := 0, tauRise := 0, a := 1, delay := 0 })
    ∧ (ExpCUBA.init 1 0 0 "matrix"
        = .error "UnsupportedError: do not support matrix method.")
    ∧ (NMDA.init 1 0 1 1 1 0 1 0 0 "dense" = .error "NotImplementedError") := by
  refine ⟨by rfl, by rfl, by rfl, by rfl⟩

/-- C1: the claim that the dense per-tick update of `ExpCUBA` adds the same
contribution to `post.input` as the sparse one fails: the body of
`_dense_update` contains no write to `post.input` at all.  On the spec's own
scenario (`N_pre = N_post = 2`, edges `{0→0, 0→1, 1→1}`, `g_max = 1`,
`delay = 0`, spike vector `[1, 0]` at tick 0 from a zero state), the sparse
step produces `input = [1, 1]` while the dense step leaves `input = [0, 0]`,
whatever the decay factor `rho` of the tick. -/
theorem cuba_dense_update_never_writes_input (rho : ℚ) :
    (ExpCUBA.sparse_update 2 [(0, 2), (2, 3)] [0, 1, 1] 1 rho
        (DelayLine.init 0 2) [0, 0] [0, 0] [true, false]).2.2 = [1, 1]
    ∧ (ExpCUBA.dense_update 2 [[1, 1], [0, 1]] 1 rho
        (DelayLine.init 0 2) [[0, 0], [0, 0]] [0, 0] [true, false]).2.2
        = [0, 0] := by
  constructor
  · simp [ExpCUBA.sparse_update, DelayLine.init, DelayLine.push, DelayLine.pull,
      whereTrue, pySlice, fancyAdd, fancyAddFrom, List.range_succ]
  · rfl

/-- C2: evaluating `ExpCOBA._loop_update` at a failing input: with two edges
`{0→0, 1→1}` over two post neurons and a delayed spike from pre neuron 0, the
statement `post.input[post_i] += g * (E - post.V)` attempts to add the whole
length-2 array `g * (E - V)` into the single cell `input[post_i]`, which numpy
rejects — the call fails (`none`) instead of adding each edge's own
contribution to its own post neuron. -/
theorem coba_loop_update_rejects_vector_assignment :
    ExpCOBA.loop_update 2 [0, 1] [0, 1] 1 1 0 (DelayLine.init 0 2)
      [0, 0] [0, 0] [0, 0] [true, false] = none := by
  decide

/-- C9: for every `cc_Mg > 0` and `beta > 0` and every post-synaptic voltage
`V`, however negative, the magnesium-block factor
`g_inf = 1 + cc_Mg/beta · exp(−alpha·V)` of `NMDA.sparse_update` is strictly
greater than `1`; in particular it is nonzero, so the division by `g_inf` in
the coupling step is never a division by zero. -/
theorem nmda_g_inf_gt_one (ccMg beta alpha v : ℝ) (hMg : 0 < ccMg)
    (hb : 0 < beta) :
    1 < NMDA.g_inf ccMg beta alpha v ∧ NMDA.g_inf ccMg beta alpha v ≠ 0 := by
  have h1 : 0 < ccMg / beta * Real.exp (-(alpha * v)) := by positivity
  unfold NMDA.g_inf
  constructor
  · linarith
  · intro h
    nlinarith

theorem nmda_g_inf_gt_one_witness :
    (0 < (1.2 : ℝ) ∧ 0 < (3.57 : ℝ))
    ∧ (1 < NMDA.g_inf 1.2 3.57 0.062 (-65)
        ∧ NMDA.g_inf 1.2 3.57 0.062 (-65) ≠ 0) :=
  ⟨⟨by norm_num, by norm_num⟩,
    nmda_g_inf_gt_one 1.2 3.57 0.062 (-65) (by norm_num) (by norm_num)⟩

lemma expEulerDecay_iterate (tau dt g : ℝ) (k : ℕ) :
    (expEulerDecay tau dt)^[k] g = g * Real.exp (-(dt / tau)) ^ k := by
  induction k with
  | zero => simp
  | succ m ih =>
    rw [Function.iterate_succ_apply', ih]
    unfold expEulerDecay
    ring

/-- C7: for every `tau_decay > 0`, `dt > 0` and gating value `g > 0`, one
gating-integration step with no spike drive (`expEulerDecay`) produces a
strictly smaller value that is still strictly positive; hence over any number
of repeated steps with zero drive, `g` stays strictly positive and strictly
decreases, tending to zero without ever crossing it. -/
theorem gating_decay_strict_monotone (tau dt g : ℝ) (htau : 0 < tau)
    (hdt : 0 < dt) (hg : 0 < g) :
    (expEulerDecay tau dt g < g ∧ 0 < expEulerDecay tau dt g)
    ∧ (∀ k : ℕ, 0 < (expEulerDecay tau dt)^[k] g
        ∧ (expEulerDecay tau dt)^[k + 1] g < (expEulerDecay tau dt)^[k] g)
    ∧ Filter.Tendsto (fun k : ℕ => (expEulerDecay tau dt)^[k] g)
        Filter.atTop (nhds 0) := by
  have hr0 : 0 < Real.exp (-(dt / tau)) := Real.exp_pos _
  have hr1 : Real.exp (-(dt / tau)) < 1 := by
    rw [Real.exp_lt_one_iff]
    have : 0 < dt / tau := div_pos hdt htau
    linarith
  refine ⟨⟨?_, ?_⟩, ?_, ?_⟩
  · unfold expEulerDecay
    exact mul_lt_of_lt_one_right hg hr1
  · unfold expEulerDecay
    positivity
  · intro k
    rw [expEulerDecay_iterate, expEulerDecay_iterate]
    constructor
    · positivity
    · have hpow : Real.exp (-(dt / tau)) ^ (k + 1) < Real.exp (-(dt / tau)) ^ k :=
        pow_lt_pow_right_of_lt_one₀ hr0 hr1 (Nat.lt_succ_self k)
      exact mul_lt_mul_of_pos_left hpow hg
  · have hpow : Filter.Tendsto (fun k : ℕ => Real.exp (-(dt / tau)) ^ k)
        Filter.atTop (nhds 0) :=
      tendsto_pow_atTop_nhds_zero_of_lt_one hr0.le hr1
    have := hpow.const_mul g
    simpa [expEulerDecay_iterate] using this

theorem gating_decay_strict_monotone_witness :
    (0 < (8 : ℝ) ∧ 0 < (1 : ℝ))
    ∧ (expEulerDecay 8 1 1 < 1 ∧ 0 < expEulerDecay 8 1 1) :=
  ⟨⟨by norm_num, by norm_num⟩,
    (gating_decay_strict_monotone 8 1 1 (by norm_num) (by norm_num)
      (by norm_num)).1⟩

/-!
## Helper lemmas for the NMDA edge loop
-/

lemma nmda_fold_snd (gMax E alpha beta ccMg : ℝ) (V : RVec) (pulled : SpikeVec)
    (preIds postIds : List Nat) (gI : RVec) (idxs : List Nat) (x input : RVec) :
    (idxs.foldl (NMDA.loop_body gMax E alpha beta ccMg V pulled preIds postIds gI)
        (x, input)).2
      = idxs.foldl (fun inp i =>
          inp.set (postIds.getD i 0)
            (inp.getD (postIds.getD i 0) 0
              - NMDA.edge_term postIds gMax E alpha beta ccMg V gI i)) input := by
  induction idxs generalizing x input with
  | nil => rfl
  | cons i rest ih =>
    rw [List.foldl_cons, List.foldl_cons]
    exact ih _ _

lemma foldl_set_sub_getD (p : Nat → Nat) (c : Nat → ℝ) (idxs : List Nat)
    (input : RVec) (j : Nat) (hj : j < input.length)
    (hp : ∀ i ∈ idxs, p i < input.length) :
    (idxs.foldl (fun inp i => inp.set (p i) (inp.getD (p i) 0 - c i)) input).getD j 0
      = input.getD j 0 - ((idxs.filter (fun i => p i = j)).map c).sum := by
  induction idxs generalizing input with
  | nil => simp
  | cons i rest ih =>
    rw [List.foldl_cons]
    have hmem : ∀ k ∈ rest,
        p k < (input.set (p i) (input.getD (p i) 0 - c i)).length := by
      intro k hk
      rw [List.length_set]
      exact hp k (List.mem_cons_of_mem _ hk)
    rw [ih _ (by rw [List.length_set]; exact hj) hmem]
    rw [List.filter_cons]
    by_cases hpi : p i = j
    · rw [if_pos (by simpa using hpi)]
      rw [hpi, getD_set_self _ _ _ _ hj]
      rw [List.map_cons, List.sum_cons]
      ring
    · rw [if_neg (by simpa using hpi)]
      rw [getD_set_ne _ _ _ _ _ hpi]

lemma nmda_input_char (size : Nat) (preIds postIds : List Nat)
    (gMax E alpha beta ccMg tauDecay tauRise a dt : ℝ) (dl : DelayLine)
    (g x input V : RVec) (preSpike : SpikeVec) (j : Nat) (hj : j < input.length)
    (hpost : ∀ i, i < size → postIds.getD i 0 < input.length) :
    ((NMDA.sparse_update size preIds postIds gMax E alpha beta ccMg tauDecay
        tauRise a dt dl g x input V preSpike).2.2.2).getD j 0
      = input.getD j 0
        - (((List.range size).filter (fun i => postIds.getD i 0 = j)).map
            (NMDA.edge_term postIds gMax E alpha beta ccMg V
              (NMDA.g_integrated tauDecay tauRise a dt g x))).sum := by
  simp only [NMDA.sparse_update]
  rw [nmda_fold_snd]
  exact foldl_set_sub_getD (fun i => postIds.getD i 0)
    (NMDA.edge_term postIds gMax E alpha beta ccMg V
      (NMDA.g_integrated tauDecay tauRise a dt g x))
    (List.range size) input j hj
    (fun i hi => hpost i (List.mem_range.mp hi))

/-!
## Helper lemmas for the GABAa2 transmitter bookkeeping
-/

lemma length_assignIdxFrom (t : ℚ) (ids : List Nat) (v : QVec) (k : Nat) :
    (assignIdxFrom t ids v k).length = v.length := by
  induction v generalizing k with
  | nil => rfl
  | cons a as ih => simp [assignIdxFrom, ih]

lemma getD_assignIdxFrom (t : ℚ) (ids : List Nat) (v : QVec) (k j : Nat)
    (hj : j < v.length) :
    (assignIdxFrom t ids v k).getD j 0
      = if (k + j) ∈ ids then t else v.getD j 0 := by
  induction v generalizing k j with
  | nil => simp at hj
  | cons a as ih =>
    cases j with
    | zero => simp [assignIdxFrom]
    | succ m =>
      have hrec := ih (k + 1) m (by simpa using hj)
      have hidx : k + (m + 1) = (k + 1) + m := by omega
      simpa [assignIdxFrom, hidx] using hrec

lemma foldl_assignIdx_getD (t : ℚ) (pre2syn : List (List Nat)) (l : List Nat)
    (acc : QVec) (j : Nat) (hj : j < acc.length) :
    (l.foldl (fun acc2 preId => assignIdx acc2 (pre2syn.getD preId []) t) acc).getD j 0
      = if (∃ p ∈ l, j ∈ pre2syn.getD p []) then t else acc.getD j 0 := by
  induction l generalizing acc with
  | nil => simp
  | cons p rest ih =>
    rw [List.foldl_cons]
    have hlen1 : (assignIdx acc (pre2syn.getD p []) t).length = acc.length := by
      unfold assignIdx
      exact length_assignIdxFrom _ _ _ _
    rw [ih _ (by rw [hlen1]; exact hj)]
    have hacc1 : (assignIdx acc (pre2syn.getD p []) t).getD j 0
        = if j ∈ pre2syn.getD p [] then t else acc.getD j 0 := by
      unfold assignIdx
      simpa using getD_assignIdxFrom t _ acc 0 j hj
    by_cases h1 : ∃ q ∈ rest, j ∈ pre2syn.getD q []
    · rw [if_pos h1, if_pos ?side]
      case side =>
        obtain ⟨q, hq1, hq2⟩ := h1
        exact ⟨q, List.mem_cons_of_mem _ hq1, hq2⟩
    · rw [if_neg h1, hacc1]
      by_cases h2 : j ∈ pre2syn.getD p []
      · rw [if_pos h2, if_pos ⟨p, List.mem_cons_self p rest, h2⟩]
      · rw [if_neg h2, if_neg ?side]
        case side =>
          rintro ⟨q, hq1, hq2⟩
          rcases List.mem_cons.mp hq1 with rfl | hq3
          · exact h2 hq2
          · exact h1 ⟨q, hq3, hq2⟩

lemma foldl_assignIdx_length (t : ℚ) (pre2syn : List (List Nat)) (l : List Nat)
    (acc : QVec) :
    (l.foldl (fun acc2 preId => assignIdx acc2 (pre2syn.getD preId []) t) acc).length
      = acc.length := by
  apply length_foldl_preserve
  intro acc2 pid
  unfold assignIdx
  exact length_assignIdxFrom _ _ _ _

/-!
## Helper lemma for the ExpCOBA increment loop length
-/

lemma length_coba_loop (pulled : SpikeVec) (preSlice : List (Nat × Nat))
    (postIds : List Nat) (gMax : ℚ) (l : List Nat) (g1 : QVec) :
    (l.foldl (fun acc preId =>
        if pulled.getD preId false then
          (pySlice postIds (preSlice.getD preId (0, 0)).1
            (preSlice.getD preId (0, 0)).2).foldl
            (fun a postId => bump a postId gMax) acc
        else acc) g1).length = g1.length := by
  apply length_foldl_preserve
  intro acc i
  by_cases h : pulled.getD i false
  · rw [if_pos h]
    apply length_foldl_preserve
    intro acc2 pid
    exact length_bump _ _ _
  · rw [if_neg h]

/-- C4: for every conductance-based synapse (ExpCOBA, GABAa, NMDA), every
gating state, and every post-id whose membrane potential equals the reversal
potential `E`, the contribution added to `input[post_id]` by that synapse's
coupling step in that tick is exactly zero: the input cell is unchanged. -/
theorem conductance_zero_at_reversal :
    (∀ (numPre : Nat) (preSlice : List (Nat × Nat)) (postIds : List Nat)
        (gMax rho E : ℚ) (dl : DelayLine) (g input V : QVec)
        (preSpike : SpikeVec) (j : Nat),
        j < input.length → j < g.length → j < V.length → V.getD j 0 = E →
        ((ExpCOBA.sparse_update numPre preSlice postIds gMax rho E dl g input V
            preSpike).2.2).getD j 0 = input.getD j 0)
    ∧ (∀ (post2syn : List (List Nat)) (E : ℚ) (g V input : QVec) (j : Nat),
        j < input.length → j < post2syn.length → j < V.length →
        V.getD j 0 = E →
        (GABAa1.output post2syn E g V input).getD j 0 = input.getD j 0)
    ∧ (∀ (size : Nat) (preIds postIds : List Nat)
        (gMax E alpha beta ccMg tauDecay tauRise a dt : ℝ) (dl : DelayLine)
        (g x input V : RVec) (preSpike : SpikeVec) (j : Nat),
        j < input.length →
        (∀ i, i < size → postIds.getD i 0 < input.length) →
        V.getD j 0 = E →
        ((NMDA.sparse_update size preIds postIds gMax E alpha beta ccMg tauDecay
            tauRise a dt dl g x input V preSpike).2.2.2).getD j 0
          = input.getD j 0) := by
  refine ⟨?_, ?_, ?_⟩
  · intro numPre preSlice postIds gMax rho E dl g input V preSpike j hji hjg hjV hVE
    simp only [ExpCOBA.sparse_update]
    have hg2len : ((List.range numPre).foldl (fun acc preId =>
        if (dl.push preSpike).pull.getD preId false then
          (pySlice postIds (preSlice.getD preId (0, 0)).1
            (preSlice.getD preId (0, 0)).2).foldl
            (fun a postId => bump a postId gMax) acc
        else acc) (g.map (· * rho))).length = g.length := by
      rw [length_coba_loop]
      simp
    rw [getD_zipWith _ _ _ j 0 0 0 hji (by
      rw [List.length_zipWith]
      omega)]
    rw [getD_zipWith _ _ _ j 0 0 0 (by omega) hjV]
    rw [hVE, sub_self, mul_zero, add_zero]
  · intro post2syn E g V input j hji hjp hjV hVE
    simp only [GABAa1.output]
    rw [getD_zipWith _ _ _ j 0 0 0 hji (by
      rw [List.length_zipWith, List.length_map]
      omega)]
    rw [getD_zipWith _ _ _ j 0 0 0 (by rw [List.length_map]; omega) hjV]
    rw [hVE, sub_self, mul_zero, sub_zero]
  · intro size preIds postIds gMax E alpha beta ccMg tauDecay tauRise a dt dl
      g x input V preSpike j hj hpost hVE
    rw [nmda_input_char size preIds postIds gMax E alpha beta ccMg tauDecay
      tauRise a dt dl g x input V preSpike j hj hpost]
    have hsum : (((List.range size).filter (fun i => postIds.getD i 0 = j)).map
        (NMDA.edge_term postIds gMax E alpha beta ccMg V
          (NMDA.g_integrated tauDecay tauRise a dt g x))).sum = 0 := by
      apply List.sum_eq_zero
      intro y hy
      obtain ⟨i, hi, rfl⟩ := List.mem_map.mp hy
      have hpij : postIds.getD i 0 = j := by
        have := List.mem_filter.mp hi
        simpa using this.2
      unfold NMDA.edge_term
      rw [hpij, hVE, sub_self, mul_zero, zero_div]
    rw [hsum, sub_zero]

theorem conductance_zero_at_reversal_witness :
    (([2] : QVec).getD 0 0 = 2 ∧ ([-80] : QVec).getD 0 0 = -80
      ∧ ([3] : RVec).getD 0 0 = 3)
    ∧ ((ExpCOBA.sparse_update 1 [(0, 1)] [0] 1 1 2 (DelayLine.init 0 1)
          [5] [3] [2] [true]).2.2).getD 0 0 = ([3] : QVec).getD 0 0
    ∧ (GABAa1.output [[0]] (-80) [4] [-80] [1]).getD 0 0 = ([1] : QVec).getD 0 0
    ∧ ((NMDA.sparse_update 1 [0] [0] 1 3 1 1 1 1 1 1 1 (DelayLine.init 0 1)
          [1] [1] [0] [3] [true]).2.2.2).getD 0 0 = ([0] : RVec).getD 0 0 := by
  refine ⟨⟨rfl, rfl, rfl⟩, ?_, ?_, ?_⟩
  · exact conductance_zero_at_reversal.1 1 [(0, 1)] [0] 1 1 2 (DelayLine.init 0 1)
      [5] [3] [2] [true] 0 (by decide) (by decide) (by decide) rfl
  · exact conductance_zero_at_reversal.2.1 [[0]] (-80) [4] [-80] [1] 0
      (by decide) (by decide) (by decide) rfl
  · exact conductance_zero_at_reversal.2.2 1 [0] [0] 1 3 1 1 1 1 1 1 1
      (DelayLine.init 0 1) [1] [1] [0] [3] [true] 0 (by decide)
      (by
        intro i hi
        have h0 : i = 0 := by omega
        subst h0
        decide) rfl

/-- C5: for every edge `i` of an NMDA synapse, the per-tick change applied to
`post.input[post_id(i)]` by the coupling step is the per-edge term
`g_max · g[i] · (V[post_id(i)] − E) / g_inf` subtracted, with
`g_inf = 1 + (cc_Mg/beta)·exp(−alpha·V[post_id(i)])` computed per edge from
that edge's own post-synaptic voltage: over the whole tick, `input[j]` changes
by minus the sum of `NMDA.edge_term` over exactly the edges with
`post_id(i) = j`, and each edge-loop iteration subtracts exactly its own
`NMDA.edge_term` from its own post cell. -/
theorem nmda_per_edge_contribution (size : Nat) (preIds postIds : List Nat)
    (gMax E alpha beta ccMg tauDecay tauRise a dt : ℝ) (dl : DelayLine)
    (g x input V : RVec) (preSpike : SpikeVec)
    (hpost : ∀ i, i < size → postIds.getD i 0 < input.length) :
    (∀ j, j < input.length →
        ((NMDA.sparse_update size preIds postIds gMax E alpha beta ccMg tauDecay
            tauRise a dt dl g x input V preSpike).2.2.2).getD j 0
          = input.getD j 0
            - (((List.range size).filter (fun i => postIds.getD i 0 = j)).map
                (NMDA.edge_term postIds gMax E alpha beta ccMg V
                  (NMDA.g_integrated tauDecay tauRise a dt g x))).sum)
    ∧ (∀ (st : RVec × RVec) (gI : RVec) (pulled : SpikeVec) (i : Nat),
        postIds.getD i 0 < st.2.length →
        ((NMDA.loop_body gMax E alpha beta ccMg V pulled preIds postIds gI st
            i).2).getD (postIds.getD i 0) 0
          = st.2.getD (postIds.getD i 0) 0
            - NMDA.edge_term postIds gMax E alpha beta ccMg V gI i) := by
  constructor
  · intro j hj
    exact nmda_input_char size preIds postIds gMax E alpha beta ccMg tauDecay
      tauRise a dt dl g x input V preSpike j hj hpost
  · intro st gI pulled i hlt
    simp only [NMDA.loop_body, NMDA.edge_term]
    exact getD_set_self _ _ _ _ hlt

theorem nmda_per_edge_contribution_witness :
    (∀ i, i < 1 → ([0] : List Nat).getD i 0 < ([0] : RVec).length)
    ∧ ((NMDA.sparse_update 1 [0] [0] 2 0 1 1 1 1 1 1 1 (DelayLine.init 0 1)
          [0] [0] [0] [1] [false]).2.2.2).getD 0 0
        = ([0] : RVec).getD 0 0
          - (((List.range 1).filter (fun i => ([0] : List Nat).getD i 0 = 0)).map
              (NMDA.edge_term [0] 2 0 1 1 1 [1]
                (NMDA.g_integrated 1 1 1 1 [0] [0]))).sum := by
  have hpost : ∀ i, i < 1 → ([0] : List Nat).getD i 0 < ([0] : RVec).length := by
    intro i hi
    have h0 : i = 0 := by omega
    subst h0
    decide
  exact ⟨hpost, (nmda_per_edge_contribution 1 [0] [0] 2 0 1 1 1 1 1 1 1
    (DelayLine.init 0 1) [0] [0] [0] [1] [false] hpost).1 0 (by decide)⟩

/-- C8: in the markov-form GABAa synapse, each tick updates the gating
variable as `s ← s + dt·(α·TT·(1−s) − β·s)`, where `TT = T` for exactly those
synapses whose last pre-synaptic spike time satisfies
`t − t_last_pre_spike < T_duration` — `t_last_pre_spike` having first been set
to the current tick time for the synapses of the pre neurons that spike this
tick, before `TT` is evaluated — and `TT = 0` for all other synapses. -/
theorem gabaa2_update_formula (numPre : Nat) (alpha beta T Tdur gMax dt t : ℚ)
    (preSpike : SpikeVec) (pre2syn : List (List Nat)) (s tLast : QVec) (i : Nat)
    (hlen : tLast.length = s.length) (hi : i < s.length) :
    ((GABAa2.update numPre alpha beta T Tdur gMax dt t preSpike pre2syn s
        tLast).1).getD i 0
      = s.getD i 0
        + dt * (alpha
            * (if t - (if ∃ p ∈ List.range numPre,
                    preSpike.getD p false = true ∧ i ∈ pre2syn.getD p []
                  then t else tLast.getD i 0) < Tdur then T else 0)
            * (1 - s.getD i 0)
          - beta * s.getD i 0) := by
  simp only [GABAa2.update]
  rw [getD_zipWith _ _ _ i 0 0 0 hi (by
    rw [List.length_map, foldl_assignIdx_length]
    omega)]
  rw [getD_map_lt _ _ i 0 0 (by rw [foldl_assignIdx_length]; omega)]
  rw [foldl_assignIdx_getD t pre2syn _ tLast i (by omega)]
  have hcond : (∃ p ∈ whereTrue numPre preSpike, i ∈ pre2syn.getD p [])
      ↔ (∃ p ∈ List.range numPre,
          preSpike.getD p false = true ∧ i ∈ pre2syn.getD p []) := by
    unfold whereTrue
    constructor
    · rintro ⟨p, hp1, hp2⟩
      obtain ⟨hpr, hps⟩ := List.mem_filter.mp hp1
      exact ⟨p, hpr, by simpa using hps, hp2⟩
    · rintro ⟨p, hpr, hps, hp2⟩
      exact ⟨p, List.mem_filter.mpr ⟨hpr, by simpa using hps⟩, hp2⟩
  simp only [hcond]

theorem gabaa2_update_formula_witness :
    ((GABAa2.update 1 1 1 2 1 1 1 10 [true] [[0]] [0] [-100]).1).getD 0 0
      = 2 := by
  rw [gabaa2_update_formula 1 1 1 2 1 1 1 10 [true] [[0]] [0] [-100] 0 rfl
    (by decide)]
  have hex : ∃ p ∈ List.range 1,
      ([true] : SpikeVec).getD p false = true
        ∧ 0 ∈ ([[0]] : List (List Nat)).getD p [] :=
    ⟨0, by decide, by decide, by decide⟩
  rw [if_pos hex]
  norm_num

end BrainModels
